import Mathlib

/-!
Shallow embedding of the consistent-hashing-with-bounded-loads library
(`consistent_hashing.go`, package `consistent_hashing`).

Modelling conventions:
* `sync.Map` values are modelled as association lists (`mapStore` overwrites an
  existing key, mirroring last-write-wins on hash collisions).
* Go `int64` loads and `totalLoad` are modelled as `Int`; `uint64` ring
  positions as `Nat`. Overflow is immaterial to the claims considered.
* The configured `hash.Hash64` pipeline (create, `Write`, `Sum64`) is a pure
  mapping `String → Option Nat`; `none` models a failing `Write`, on which the
  Go code panics inside `Hash` (and `Add`/`Remove` would `log.Fatal`): both
  terminate the process, modelled by `Outcome.fatal`.
* `float64` arithmetic in `MaxLoad` (`math.Ceil(float64(totalLoad)/float64(n) *
  loadFactor)`) is modelled exactly over rationals: the load factor is a
  rational and the ceiling of the exact quotient is computed by `ceilFrac`
  over integers so that every definition evaluates by kernel reduction.
* Operations return a pair of an `Outcome` and the post-state; after
  `Outcome.fatal` the Go process is dead, so the state component of a fatal
  result is a modelling artifact that no theorem inspects.
* `sort.Slice` with a strict `<` comparator on `uint64` keys produces the
  unique `≤`-sorted permutation, modelled by `List.insertionSort (· ≤ ·)`.
* `sort.Search` on the ascending `sortedSet` returns the least index whose
  element satisfies the predicate, which for any list equals `List.findIdx`.
-/

/-- Error kinds (`ErrNoHost`, `ErrHostNotFound` in the source). -/
inductive CHError where
  | noHost
  | hostNotFound
deriving DecidableEq

/-- Result of an operation: a returned value, a returned error, or process
termination (`log.Fatal` / `panic`). -/
inductive Outcome (α : Type) where
  | ok : α → Outcome α
  | err : CHError → Outcome α
  | fatal : Outcome α
deriving DecidableEq

/-- `sync.Map` association-list `Store`: overwrite the existing key or append. -/
def mapStore {κ ν : Type} [DecidableEq κ] (m : List (κ × ν)) (k : κ) (v : ν) :
    List (κ × ν) :=
  if m.any (fun e => decide (e.1 = k)) then
    m.map (fun e => if e.1 = k then (k, v) else e)
  else m ++ [(k, v)]

/-- `sync.Map` association-list `Load`. -/
def mapFind {κ ν : Type} [DecidableEq κ] (m : List (κ × ν)) (k : κ) : Option ν :=
  (m.find? (fun e => decide (e.1 = k))).map (fun e => e.2)

/-- `sync.Map` association-list `Delete`. -/
def mapDelete {κ ν : Type} [DecidableEq κ] (m : List (κ × ν)) (k : κ) :
    List (κ × ν) :=
  m.filter (fun e => decide (¬ e.1 = k))

/-- In-place mutation of the record stored under key `k`
(the Go code updates `hostData.Load` through a pointer). -/
def mapAdjust (m : List (String × Int)) (k : String) (f : Int → Int) :
    List (String × Int) :=
  m.map (fun e => if e.1 = k then (e.1, f e.2) else e)

/-- Consistent hashing config parameters (`Config`). -/
structure Config where
  replicationFactor : Int
  loadFactor : ℚ
  hashFunction : String → Option Nat

/-- CH with bounded loads (`ConsistentHashing`): virtual-node map, sorted ring
positions, per-host load ledger, running total, and host list. -/
structure ConsistentHashing where
  config : Config
  hosts : List (Nat × String)
  sortedSet : List Nat
  loadMap : List (String × Int)
  totalLoad : Int
  hostList : List String

/-- `NewWithConfig`: default replication factor 10 when `≤ 0` and load factor
5/4 when `≤ 1`; start with empty topology and ledger. (The nil-hash-function
default cannot arise here because `hashFunction` is total.) -/
def NewWithConfig (cfg : Config) : ConsistentHashing :=
  let cfg₁ := { cfg with
    replicationFactor := if cfg.replicationFactor ≤ 0 then 10 else cfg.replicationFactor }
  let cfg₂ := { cfg₁ with
    loadFactor := if cfg₁.loadFactor ≤ 1 then Rat.divInt 5 4 else cfg₁.loadFactor }
  { config := cfg₂, hosts := [], sortedSet := [], loadMap := [],
    totalLoad := 0, hostList := [] }

/-- Largest `int64` value (`math.MaxInt64`), the sentinel in `GetLeast`. -/
def int64Max : Int := 2 ^ 63 - 1

/-- Ceiling of the exact fraction `a / b` (for `b > 0`), i.e. `math.Ceil`
applied to the exact quotient. -/
def ceilFrac (a b : Int) : Int := -(Int.fdiv (-a) b)

namespace ConsistentHashing

/-- `Hash`: run the configured hash function; a failing `Write` makes the Go
code `panic`, i.e. the process aborts (`fatal`). The returned Go `error` is
always nil. -/
def Hash (c : ConsistentHashing) (key : String) : Outcome Nat :=
  match c.config.hashFunction key with
  | some v => .ok v
  | none => .fatal

/-- `Search`: least index of a ring position `≥ key`, taken modulo the ring
size (the circular wrap); `sort.Search` returns the list length when no
element qualifies. The Go `error` return is always nil. -/
def Search (c : ConsistentHashing) (key : Nat) : Nat :=
  (c.sortedSet.findIdx (fun x => decide (key ≤ x))) % c.sortedSet.length

/-- One iteration of `Add`'s virtual-node loop: hash `host + i`, store the
position in the reverse index and append it to the (not yet re-sorted)
position sequence. -/
def addVNode (c : ConsistentHashing) (host : String) (i : Nat) :
    Outcome ConsistentHashing :=
  match Hash c (host ++ toString i) with
  | .ok h => .ok { c with hosts := mapStore c.hosts h host,
                          sortedSet := c.sortedSet ++ [h] }
  | _ => .fatal

/-- `Add`'s virtual-node loop over the replication indices. -/
def addVNodes (c : ConsistentHashing) (host : String) :
    List Nat → Outcome ConsistentHashing
  | [] => .ok c
  | i :: rest =>
    match addVNode c host i with
    | .ok c' => addVNodes c' host rest
    | _ => .fatal

/-- `Add`: no-op success when the host already exists; otherwise register the
host with load 0, append it to the host list, insert its `R` virtual nodes
(`log.Fatal`, i.e. `fatal`, on a hashing failure), then re-sort the position
sequence. -/
def Add (c : ConsistentHashing) (host : String) :
    Outcome Unit × ConsistentHashing :=
  if (mapFind c.loadMap host).isSome then (.ok (), c)
  else
    let c₁ := { c with loadMap := mapStore c.loadMap host 0,
                       hostList := c.hostList ++ [host] }
    match addVNodes c₁ host (List.range c₁.config.replicationFactor.toNat) with
    | .ok c₂ => (.ok (), { c₂ with
        sortedSet := List.insertionSort (· ≤ ·) c₂.sortedSet })
    | _ => (.fatal, c₁)

/-- `Get`: `ErrNoHost` on an empty host list, otherwise hash the key, locate
the owning ring position via `Search`, and look up its owner. -/
def Get (c : ConsistentHashing) (key : String) : Outcome String :=
  if c.hostList.length = 0 then .err .noHost
  else
    match Hash c key with
    | .ok h =>
      let index := Search c h
      match mapFind c.hosts (c.sortedSet.getD index 0) with
      | some host => .ok host
      | none => .err .hostNotFound
    | _ => .fatal

/-- `MaxLoad`: `ceil(totalLoad' / len(hostList) × loadFactor)` where
`totalLoad'` is `totalLoad` floored to 1 only when it is exactly 0. The Go
guard `if avgLoadPerNode == 0 { avgLoadPerNode = 1 }` is dead code
(`totalLoad'` is never 0, so the float quotient is never 0 for a nonempty
host list) and is dead here as well. The float expression
`float64(totalLoad) / float64(n) * loadFactor` is computed exactly:
its value is the fraction `(totalLoad' · loadFactor.num) / (n · loadFactor.den)`. -/
def MaxLoad (c : ConsistentHashing) : Int :=
  let totalLoad : Int := if c.totalLoad = 0 then 1 else c.totalLoad
  ceilFrac (totalLoad * c.config.loadFactor.num)
    ((c.hostList.length : Int) * (c.config.loadFactor.den : Int))

/-- `LoadOk`: the host's current load is strictly below `MaxLoad`; `false`
when the host is not in the ledger. -/
def LoadOk (c : ConsistentHashing) (host : String) : Bool :=
  match mapFind c.loadMap host with
  | some load => decide (load < MaxLoad c)
  | none => false

/-- Ring-walk index sequence of `GetLeast`: `(index + i) % len(sortedSet)` for
`i` in `[0, len(sortedSet))`. -/
def walkIdx (n start : Nat) : List Nat :=
  (List.range n).map (fun i => (start + i) % n)

/-- One iteration of `GetLeast`'s walk: if the probed position has an owner
whose load is acceptable and strictly below the best load so far, it becomes
the new best candidate. -/
def stepBest (c : ConsistentHashing) (acc : String × Int) (j : Nat) :
    String × Int :=
  match mapFind c.hosts (c.sortedSet.getD j 0) with
  | some host =>
    if LoadOk c host then
      match mapFind c.loadMap host with
      | some load => if load < acc.2 then (host, load) else acc
      | none => acc
    else acc
  | none => acc

/-- `GetLeast`'s walk over the whole ring starting from `start`, with the
initial sentinel accumulator `("", math.MaxInt64)`. -/
def bestLoop (c : ConsistentHashing) (start : Nat) : String × Int :=
  (walkIdx c.sortedSet.length start).foldl (stepBest c) ("", int64Max)

/-- Core of `GetLeast` after hashing: run the walk; when no candidate was
recorded (`leastLoadedHost == ""`) fall back to the owner of the starting
position (the plain `Get` rule), reporting `ErrHostNotFound` if that lookup
fails. The boolean records whether the fallback branch produced the result. -/
def getLeastAux (c : ConsistentHashing) (index : Nat) : Outcome String × Bool :=
  let best := bestLoop c index
  if best.1 = "" then
    (match mapFind c.hosts (c.sortedSet.getD index 0) with
     | some host => .ok host
     | none => .err .hostNotFound, true)
  else (.ok best.1, false)

/-- `GetLeast` together with the fallback flag. -/
def getLeastFlag (c : ConsistentHashing) (key : String) : Outcome String × Bool :=
  if c.hostList.length = 0 then (.err .noHost, false)
  else
    match Hash c key with
    | .ok h => getLeastAux c (Search c h)
    | _ => (.fatal, false)

/-- `GetLeast`: bounded-load lookup. -/
def GetLeast (c : ConsistentHashing) (key : String) : Outcome String :=
  (getLeastFlag c key).1

/-- `IncreaseLoad`: add 1 to the host's load and to `totalLoad`;
`ErrHostNotFound` when the host is not in the ledger. -/
def IncreaseLoad (c : ConsistentHashing) (host : String) :
    Outcome Unit × ConsistentHashing :=
  match mapFind c.loadMap host with
  | some _ => (.ok (), { c with loadMap := mapAdjust c.loadMap host (· + 1),
                                totalLoad := c.totalLoad + 1 })
  | none => (.err .hostNotFound, c)

/-- `DecreaseLoad`: subtract 1 from the host's load and from `totalLoad`;
`ErrHostNotFound` when the host is not in the ledger. No clamping at 0. -/
def DecreaseLoad (c : ConsistentHashing) (host : String) :
    Outcome Unit × ConsistentHashing :=
  match mapFind c.loadMap host with
  | some _ => (.ok (), { c with loadMap := mapAdjust c.loadMap host (· - 1),
                                totalLoad := c.totalLoad - 1 })
  | none => (.err .hostNotFound, c)

/-- `UpdateLoad`: set the host's load to `load`, adjusting `totalLoad` by
`-oldLoad + load`; `ErrHostNotFound` when the host is not in the ledger. -/
def UpdateLoad (c : ConsistentHashing) (host : String) (load : Int) :
    Outcome Unit × ConsistentHashing :=
  match mapFind c.loadMap host with
  | some old => (.ok (), { c with
      loadMap := mapAdjust c.loadMap host (fun _ => load),
      totalLoad := c.totalLoad + (-old + load) })
  | none => (.err .hostNotFound, c)

/-- `removeFromSortedSet`: binary-search the value's index and, if the value
is actually there, remove that single occurrence. -/
def removeFromSortedSet (l : List Nat) (val : Nat) : List Nat :=
  let index := l.findIdx (fun x => decide (val ≤ x))
  if index < l.length ∧ l.getD index 0 = val then l.eraseIdx index else l

/-- `Remove`'s virtual-node loop: re-hash `host + i`, delete the position from
the reverse index, and remove it from the position sequence; a hashing failure
hits `log.Fatal` (`fatal`). -/
def removeVNodes (c : ConsistentHashing) (host : String) :
    List Nat → Outcome ConsistentHashing
  | [] => .ok c
  | i :: rest =>
    match Hash c (host ++ toString i) with
    | .ok h =>
      removeVNodes { c with hosts := mapDelete c.hosts h,
                            sortedSet := removeFromSortedSet c.sortedSet h }
        host rest
    | _ => .fatal

/-- `Remove`: `ErrHostNotFound` when the host is absent; otherwise delete all
its virtual nodes, drop it from the ledger and from the host list. Note the
source never subtracts the removed host's load from `totalLoad`. -/
def Remove (c : ConsistentHashing) (host : String) :
    Outcome Unit × ConsistentHashing :=
  if (mapFind c.loadMap host).isSome then
    match removeVNodes c host (List.range c.config.replicationFactor.toNat) with
    | .ok c₁ => (.ok (), { c₁ with loadMap := mapDelete c₁.loadMap host,
                                   hostList := c₁.hostList.erase host })
    | _ => (.fatal, c)
  else (.err .hostNotFound, c)

/-- `GetLoads`: snapshot of the ledger mapping. -/
def GetLoads (c : ConsistentHashing) : List (String × Int) := c.loadMap

/-- `Hosts`: snapshot of the host list. -/
def Hosts (c : ConsistentHashing) : List String := c.hostList

/-- Sum of all per-host loads in the ledger. -/
def sumLoads (c : ConsistentHashing) : Int := (c.loadMap.map (fun e => e.2)).sum

/-- Well-formedness of a ring state: sorted position sequence, every position
owned by a host that is in the ledger, ring size `R × |hosts|`, positive
replication factor. Reachable states (built by `Add`/`Remove` from
`NewWithConfig` without hash collisions) satisfy it. -/
def wellFormed (c : ConsistentHashing) : Prop :=
  c.sortedSet.Pairwise (· ≤ ·) ∧
  (∀ p ∈ c.sortedSet,
    ((mapFind c.hosts p).bind (fun h => mapFind c.loadMap h)).isSome) ∧
  c.sortedSet.length = c.config.replicationFactor.toNat * c.hostList.length ∧
  0 < c.config.replicationFactor

instance (c : ConsistentHashing) : Decidable (wellFormed c) := by
  unfold wellFormed; infer_instance

end ConsistentHashing


namespace ConsistentHashing

/-- Current load of a host as read from the ledger (0 when absent). -/
def loadOf (c : ConsistentHashing) (host : String) : Int :=
  (mapFind c.loadMap host).getD 0

/-- Owner of the ring position probed at walk index `j` (`""` when the reverse
index has no entry, which cannot happen in a well-formed state). -/
def ownerAt (c : ConsistentHashing) (j : Nat) : String :=
  (mapFind c.hosts (c.sortedSet.getD j 0)).getD ""

/-- The sequence of owners probed by `GetLeast`'s walk, in walk order. -/
def walkHosts (c : ConsistentHashing) (start : Nat) : List String :=
  (walkIdx c.sortedSet.length start).map (ownerAt c)

/-- Host-level form of one walk iteration, applicable once the probed
position is known to have an owner. -/
def stepBestH (c : ConsistentHashing) (acc : String × Int) (host : String) :
    String × Int :=
  if LoadOk c host then
    match mapFind c.loadMap host with
    | some load => if load < acc.2 then (host, load) else acc
    | none => acc
  else acc

/-- One round of the assignment workload: `GetLeast` on a key followed by
`IncreaseLoad` on the returned host, recording the assigned host, the
`MaxLoad` bound in force at assignment time, and whether the result came from
the fallback branch. A failed lookup performs no assignment. -/
def step (c : ConsistentHashing) (key : String) :
    ConsistentHashing × Option (String × Int × Bool) :=
  match getLeastFlag c key with
  | (.ok h, fb) => ((IncreaseLoad c h).2, some (h, MaxLoad c, fb))
  | _ => (c, none)

/-- Run a sequence of `GetLeast`-then-`IncreaseLoad` rounds, returning the
final state and the assignment trace. -/
def run (c : ConsistentHashing) :
    List String → ConsistentHashing × List (String × Int × Bool)
  | [] => (c, [])
  | k :: rest =>
    let s := step c k
    let r := run s.1 rest
    (r.1, match s.2 with | some e => e :: r.2 | none => r.2)

/-- Bound and fallback flag of the most recent assignment of `h` in a trace. -/
def lastAssign (tr : List (String × Int × Bool)) (h : String) :
    Option (Int × Bool) :=
  ((tr.filter (fun e => decide (e.1 = h))).getLast?).map (fun e => e.2)

/-- Modelled from the spec: the bound formula the specification asserts for
`maxLoad()`, namely `ceil(max(1, totalLoad / |hosts|) × loadFactor)`, with the
floor at 1 applied to the per-host average. Stated for comparison with the
source's `MaxLoad`. -/
def specMaxLoad (c : ConsistentHashing) : Int :=
  ⌈(max 1 ((c.totalLoad : ℚ) / (c.hostList.length : ℚ))) * c.config.loadFactor⌉

end ConsistentHashing

/-- Concrete hash table used by the witness states: distinct positions for the
virtual nodes of hosts `a`, `b`, `c` (replication factor 1) and for the
lookup keys `k` and `y`. -/
def exHash : String → Option Nat := fun s =>
  if s = "a0" then some 100 else
  if s = "b0" then some 200 else
  if s = "c0" then some 300 else
  if s = "k" then some 150 else
  if s = "y" then some 250 else some 0

/-- Witness configuration: replication factor 1, load factor 5/4. -/
def exCfg : Config :=
  { replicationFactor := 1, loadFactor := Rat.divInt 5 4, hashFunction := exHash }

/-- Freshly constructed ring. -/
def exEmpty : ConsistentHashing := NewWithConfig exCfg

/-- Ring with host `a`. -/
def exA : ConsistentHashing := (exEmpty.Add "a").2

/-- Ring with hosts `a`, `b`, both at load 0. -/
def exAB : ConsistentHashing := (exA.Add "b").2

/-- Ring with hosts `a`, `b`; load 1 on `a`, total load 1. -/
def exAB1 : ConsistentHashing := (exAB.IncreaseLoad "a").2

/-- Ring with hosts `a`, `b`; load 2 on `b`, total load 2. -/
def exABb2 : ConsistentHashing := ((exAB.IncreaseLoad "b").2.IncreaseLoad "b").2

/-- Single-host ring with load 1 on `a`. -/
def exA1 : ConsistentHashing := (exA.IncreaseLoad "a").2

/-- Configuration whose hash function fails (its `Write` errors) on every
input. -/
def failCfg : Config :=
  { replicationFactor := 1, loadFactor := Rat.divInt 5 4,
    hashFunction := fun _ => none }

/-- Hash table for the ring containing a host whose name is the empty string:
the empty host's single virtual-node key is `"" + 0 = "0"`. -/
def exHashE : String → Option Nat := fun s =>
  if s = "0" then some 100 else
  if s = "x0" then some 200 else
  if s = "k" then some 150 else some 0

/-- Configuration for the empty-host-name ring. -/
def exCfgE : Config :=
  { replicationFactor := 1, loadFactor := Rat.divInt 5 4,
    hashFunction := exHashE }

/-- Ring with hosts `""` (load 0) and `x` (load 1), total load 1, so
`MaxLoad = 1`: host `""` is the only host strictly below the bound. -/
def exE : ConsistentHashing :=
  ((((NewWithConfig exCfgE).Add "").2.Add "x").2.IncreaseLoad "x").2

/-! ### Association-list lemmas -/

theorem mapFind_eq_none {κ ν : Type} [DecidableEq κ] (m : List (κ × ν)) (k : κ) :
    mapFind m k = none ↔ ∀ e ∈ m, ¬ e.1 = k := by
  simp [mapFind, List.find?_eq_none]

theorem mapStore_of_absent {κ ν : Type} [DecidableEq κ] (m : List (κ × ν))
    (k : κ) (v : ν) (h : mapFind m k = none) : mapStore m k v = m ++ [(k, v)] := by
  rw [mapFind_eq_none] at h
  unfold mapStore
  rw [if_neg]
  simp only [List.any_eq_true, decide_eq_true_eq, not_exists]
  push_neg
  exact h

theorem mapFind_append_right {κ ν : Type} [DecidableEq κ] (m₁ m₂ : List (κ × ν))
    (k : κ) (h : mapFind m₁ k = none) :
    mapFind (m₁ ++ m₂) k = mapFind m₂ k := by
  rw [mapFind_eq_none] at h
  induction m₁ with
  | nil => rfl
  | cons e t ih =>
    have he : ¬ e.1 = k := h e (by simp)
    simp only [List.cons_append]
    unfold mapFind
    rw [List.find?_cons_of_neg _ (by simpa using he)]
    exact ih (fun x hx => h x (by simp [hx]))

theorem mapFind_singleton {κ ν : Type} [DecidableEq κ] (k : κ) (v : ν) :
    mapFind [(k, v)] k = some v := by
  simp [mapFind]

theorem mapDelete_append_singleton {κ ν : Type} [DecidableEq κ]
    (m : List (κ × ν)) (k : κ) (v : ν) (h : mapFind m k = none) :
    mapDelete (m ++ [(k, v)]) k = m := by
  rw [mapFind_eq_none] at h
  unfold mapDelete
  rw [List.filter_append]
  have h1 : List.filter (fun e => decide (¬ e.1 = k)) [(k, v)] = [] := by simp
  rw [h1, List.append_nil]
  apply List.filter_eq_self.mpr
  intro e he
  simpa using h e he

theorem mapFind_adjust_self (m : List (String × Int)) (k : String) (f : Int → Int) :
    mapFind (mapAdjust m k f) k = (mapFind m k).map f := by
  induction m with
  | nil => rfl
  | cons e t ih =>
    by_cases he : e.1 = k
    · simp [mapAdjust, mapFind, he]
    · unfold mapAdjust mapFind at ih ⊢
      simp only [List.map_cons, if_neg he]
      rw [List.find?_cons_of_neg _ (by simpa using he),
        List.find?_cons_of_neg _ (by simpa using he)]
      exact ih

theorem mapFind_adjust_ne (m : List (String × Int)) (k x : String) (f : Int → Int)
    (h : ¬ x = k) : mapFind (mapAdjust m k f) x = mapFind m x := by
  induction m with
  | nil => rfl
  | cons e t ih =>
    by_cases he : e.1 = k
    · have hex : ¬ e.1 = x := by rw [he]; exact fun hh => h hh.symm
      unfold mapAdjust mapFind at ih ⊢
      simp only [List.map_cons, if_pos he]
      rw [List.find?_cons_of_neg _ (by simpa using hex),
        List.find?_cons_of_neg _ (by simpa using hex)]
      exact ih
    · by_cases hex : e.1 = x
      · unfold mapAdjust mapFind
        simp only [List.map_cons, if_neg he]
        rw [List.find?_cons_of_pos _ (by simpa using hex),
          List.find?_cons_of_pos _ (by simpa using hex)]
      · unfold mapAdjust mapFind at ih ⊢
        simp only [List.map_cons, if_neg he]
        rw [List.find?_cons_of_neg _ (by simpa using hex),
          List.find?_cons_of_neg _ (by simpa using hex)]
        exact ih

/-! ### Field preservation through the virtual-node loops -/

theorem addVNodes_fields (host : String) :
    ∀ (l : List Nat) (c cc : ConsistentHashing),
      ConsistentHashing.addVNodes c host l = .ok cc →
      cc.loadMap = c.loadMap ∧ cc.hostList = c.hostList ∧
      cc.config = c.config ∧ cc.totalLoad = c.totalLoad := by
  intro l
  induction l with
  | nil =>
    intro c cc h
    unfold ConsistentHashing.addVNodes at h
    injection h with h
    subst h
    exact ⟨rfl, rfl, rfl, rfl⟩
  | cons i rest ih =>
    intro c cc h
    unfold ConsistentHashing.addVNodes ConsistentHashing.addVNode at h
    cases hh : ConsistentHashing.Hash c (host ++ toString i) with
    | ok p =>
      rw [hh] at h
      simp only at h
      have hf := ih _ cc h
      exact hf
    | err e => rw [hh] at h; simp at h
    | fatal => rw [hh] at h; simp at h

theorem removeVNodes_fields (host : String) :
    ∀ (l : List Nat) (c cc : ConsistentHashing),
      ConsistentHashing.removeVNodes c host l = .ok cc →
      cc.loadMap = c.loadMap ∧ cc.hostList = c.hostList ∧
      cc.config = c.config ∧ cc.totalLoad = c.totalLoad := by
  intro l
  induction l with
  | nil =>
    intro c cc h
    unfold ConsistentHashing.removeVNodes at h
    injection h with h
    subst h
    exact ⟨rfl, rfl, rfl, rfl⟩
  | cons i rest ih =>
    intro c cc h
    unfold ConsistentHashing.removeVNodes at h
    cases hh : ConsistentHashing.Hash c (host ++ toString i) with
    | ok p =>
      rw [hh] at h
      simp only at h
      have hf := ih _ cc h
      exact hf
    | err e => rw [hh] at h; simp at h
    | fatal => rw [hh] at h; simp at h

/-! ### Add: presence and idempotence -/

theorem add_of_present (c : ConsistentHashing) (h : String)
    (hmem : (mapFind c.loadMap h).isSome = true) : c.Add h = (.ok (), c) := by
  unfold ConsistentHashing.Add
  rw [if_pos hmem]

theorem add_mem (c c₁ : ConsistentHashing) (h : String)
    (hAdd : c.Add h = (.ok (), c₁)) : (mapFind c₁.loadMap h).isSome = true := by
  unfold ConsistentHashing.Add at hAdd
  by_cases hmem : (mapFind c.loadMap h).isSome = true
  · rw [if_pos hmem] at hAdd
    obtain rfl : c = c₁ := congrArg Prod.snd hAdd
    exact hmem
  · rw [if_neg hmem] at hAdd
    have hnone : mapFind c.loadMap h = none := by
      cases hmf : mapFind c.loadMap h with
      | none => rfl
      | some l => rw [hmf] at hmem; simp at hmem
    simp only at hAdd
    split at hAdd
    next c₂ heq =>
      have hf := addVNodes_fields h _ _ c₂ heq
      obtain rfl : _ = c₁ := congrArg Prod.snd hAdd
      simp only
      rw [hf.1, mapStore_of_absent _ _ _ hnone,
        mapFind_append_right _ _ _ hnone, mapFind_singleton]
      rfl
    next heq =>
      exact absurd (congrArg Prod.fst hAdd) (by simp)

/-- C8: calling `Add(h)` twice in a row is equivalent to calling it once —
the second call returns success and leaves the state (hence host count, ring
size, per-host loads and `totalLoad`) completely unchanged. -/
theorem add_idempotent (c c₁ : ConsistentHashing) (h : String)
    (hAdd : c.Add h = (.ok (), c₁)) : c₁.Add h = (.ok (), c₁) :=
  add_of_present c₁ h (add_mem c c₁ h hAdd)

/-- Witness for C8 at a concrete ring. -/
theorem add_idempotent_witness :
    ConsistentHashing.Add exEmpty "a" = (.ok (), exA) ∧
    ConsistentHashing.Add exA "a" = (.ok (), exA) :=
  ⟨rfl, add_idempotent exEmpty exA "a" rfl⟩

/-- C9: `UpdateLoad(h, v)` on a present host sets its load to `v`, changes
`totalLoad` by exactly `v − oldLoad`, and leaves every other host's load
unchanged; on an absent host it fails with `HostNotFound` and changes
nothing. -/
theorem updateLoad_spec (c : ConsistentHashing) (host : String) (v : Int) :
    (∀ L, mapFind c.loadMap host = some L →
      (c.UpdateLoad host v).1 = .ok () ∧
      mapFind ((c.UpdateLoad host v).2).loadMap host = some v ∧
      ((c.UpdateLoad host v).2).totalLoad = c.totalLoad + (v - L) ∧
      (∀ x, ¬ x = host →
        mapFind ((c.UpdateLoad host v).2).loadMap x = mapFind c.loadMap x)) ∧
    (mapFind c.loadMap host = none →
      c.UpdateLoad host v = (.err .hostNotFound, c)) := by
  constructor
  · intro L hL
    unfold ConsistentHashing.UpdateLoad
    rw [hL]
    refine ⟨rfl, ?_, ?_, ?_⟩
    · simp only [mapFind_adjust_self, hL, Option.map_some']
    · simp only
      ring
    · intro x hx
      show mapFind (mapAdjust c.loadMap host (fun _ => v)) x = mapFind c.loadMap x
      exact mapFind_adjust_ne _ _ _ _ hx
  · intro hN
    unfold ConsistentHashing.UpdateLoad
    rw [hN]

/-- Witness for C9 at a concrete ring: update a present host to 5 and probe an
absent one. -/
theorem updateLoad_spec_witness :
    mapFind exAB.loadMap "a" = some 0 ∧
    ((exAB.UpdateLoad "a" 5).1 = .ok () ∧
      mapFind ((exAB.UpdateLoad "a" 5).2).loadMap "a" = some 5 ∧
      ((exAB.UpdateLoad "a" 5).2).totalLoad = exAB.totalLoad + (5 - 0) ∧
      mapFind ((exAB.UpdateLoad "a" 5).2).loadMap "b" = mapFind exAB.loadMap "b") ∧
    mapFind exAB.loadMap "ghost" = none ∧
    exAB.UpdateLoad "ghost" 5 = (.err .hostNotFound, exAB) := by
  have h1 : mapFind exAB.loadMap "a" = some 0 := by decide
  have h2 : mapFind exAB.loadMap "ghost" = none := by decide
  have hmain := (updateLoad_spec exAB "a" 5).1 0 h1
  exact ⟨h1, ⟨hmain.1, hmain.2.1, hmain.2.2.1, hmain.2.2.2 "b" (by decide)⟩, h2,
    (updateLoad_spec exAB "ghost" 5).2 h2⟩

/-- C10: loads are not guarded to stay non-negative — `DecreaseLoad` succeeds
on a host at load 0, leaving load −1 and decrementing `totalLoad` by the same
1, and `UpdateLoad` accepts any (also negative) value, moving the host's load
and `totalLoad` by the same delta. -/
theorem negative_loads_unguarded (c : ConsistentHashing) (host : String) (v : Int) :
    (mapFind c.loadMap host = some 0 →
      (c.DecreaseLoad host).1 = .ok () ∧
      mapFind ((c.DecreaseLoad host).2).loadMap host = some (-1) ∧
      ((c.DecreaseLoad host).2).totalLoad = c.totalLoad - 1) ∧
    (∀ L, mapFind c.loadMap host = some L → v < 0 →
      (c.UpdateLoad host v).1 = .ok () ∧
      mapFind ((c.UpdateLoad host v).2).loadMap host = some v ∧
      ((c.UpdateLoad host v).2).totalLoad = c.totalLoad + (v - L)) := by
  constructor
  · intro h0
    unfold ConsistentHashing.DecreaseLoad
    rw [h0]
    refine ⟨rfl, ?_, rfl⟩
    simp only [mapFind_adjust_self, h0, Option.map_some']
    norm_num
  · intro L hL _
    have h := (updateLoad_spec c host v).1 L hL
    exact ⟨h.1, h.2.1, h.2.2.1⟩

/-- Witness for C10 at a concrete ring: decrease `a` from load 0 to −1 and
update it to −3. -/
theorem negative_loads_unguarded_witness :
    mapFind exAB.loadMap "a" = some 0 ∧ (-3 : Int) < 0 ∧
    ((exAB.DecreaseLoad "a").1 = .ok () ∧
      mapFind ((exAB.DecreaseLoad "a").2).loadMap "a" = some (-1) ∧
      ((exAB.DecreaseLoad "a").2).totalLoad = exAB.totalLoad - 1) ∧
    ((exAB.UpdateLoad "a" (-3)).1 = .ok () ∧
      mapFind ((exAB.UpdateLoad "a" (-3)).2).loadMap "a" = some (-3) ∧
      ((exAB.UpdateLoad "a" (-3)).2).totalLoad = exAB.totalLoad + (-3 - 0)) := by
  have h1 : mapFind exAB.loadMap "a" = some 0 := by decide
  exact ⟨h1, by norm_num,
    (negative_loads_unguarded exAB "a" (-3)).1 h1,
    (negative_loads_unguarded exAB "a" (-3)).2 0 h1 (by norm_num)⟩

/-- C1 (failing scenario): in the reachable single-host state with load 1
(`Add "a"` then `IncreaseLoad "a"`), `Remove "a"` succeeds but leaves
`totalLoad = 1` while the sum of the per-host loads is 0 — the removed host's
load is never subtracted, so the ledger invariant
`totalLoad == sum(load over all hosts)` is broken by `Remove`. -/
theorem remove_loaded_host_overcounts_totalLoad :
    (exA1.IncreaseLoad "a").1 = .ok () ∧
    exA1.totalLoad = 1 ∧ ConsistentHashing.sumLoads exA1 = 1 ∧
    (exA1.Remove "a").1 = .ok () ∧
    ((exA1.Remove "a").2).totalLoad = 1 ∧
    ConsistentHashing.sumLoads ((exA1.Remove "a").2) = 0 := by decide

/-- C3 (failing scenario): with a hash function whose `Write` fails, `Add`
terminates the process (`log.Fatal`/`panic`) instead of returning a
`HashingError` result — indeed no hashing-error value exists in the source's
error set. -/
theorem add_hash_failure_aborts_process :
    (ConsistentHashing.Add (NewWithConfig failCfg) "h").1 = Outcome.fatal := by decide

/-- C7: starting from a state in which host `h` is not present, `Add(h)`
followed by `Remove(h)` restores both the host list and the `getLoads()`
ledger snapshot exactly. -/
theorem add_remove_round_trip (c c₁ c₂ : ConsistentHashing) (h : String)
    (hL : mapFind c.loadMap h = none) (hH : h ∉ c.hostList)
    (hAdd : c.Add h = (.ok (), c₁)) (hRem : c₁.Remove h = (.ok (), c₂)) :
    c₂.hostList = c.hostList ∧
    ConsistentHashing.GetLoads c₂ = ConsistentHashing.GetLoads c := by
  have hmem : ¬ (mapFind c.loadMap h).isSome = true := by rw [hL]; simp
  unfold ConsistentHashing.Add at hAdd
  rw [if_neg hmem] at hAdd
  simp only at hAdd
  -- shape of the state after Add
  have hc₁ : c₁.loadMap = c.loadMap ++ [(h, 0)] ∧ c₁.hostList = c.hostList ++ [h] := by
    split at hAdd
    next c₃ heq =>
      have hf := addVNodes_fields h _ _ c₃ heq
      obtain rfl : _ = c₁ := congrArg Prod.snd hAdd
      refine ⟨?_, ?_⟩
      · show c₃.loadMap = c.loadMap ++ [(h, 0)]
        rw [hf.1, mapStore_of_absent _ _ _ hL]
      · exact hf.2.1
    next heq =>
      exact absurd (congrArg Prod.fst hAdd) (by simp)
  -- Remove finds the host present
  have hfind : mapFind c₁.loadMap h = some 0 := by
    rw [hc₁.1, mapFind_append_right _ _ _ hL, mapFind_singleton]
  unfold ConsistentHashing.Remove at hRem
  rw [if_pos (by rw [hfind]; rfl)] at hRem
  split at hRem
  next c₃ heq =>
    have hf := removeVNodes_fields h _ _ c₃ heq
    obtain rfl : _ = c₂ := congrArg Prod.snd hRem
    constructor
    · show c₃.hostList.erase h = c.hostList
      rw [hf.2.1, hc₁.2, List.erase_append_right _ (by simpa using hH)]
      simp
    · show ConsistentHashing.GetLoads _ = ConsistentHashing.GetLoads c
      unfold ConsistentHashing.GetLoads
      show mapDelete c₃.loadMap h = c.loadMap
      rw [hf.1, hc₁.1, mapDelete_append_singleton _ _ _ hL]
  next heq =>
    exact absurd (congrArg Prod.fst hRem) (by simp)

/-- Witness for C7 at a concrete ring: add and remove host `c` on the
two-host ring. -/
theorem add_remove_round_trip_witness :
    mapFind exAB.loadMap "c" = none ∧ "c" ∉ exAB.hostList ∧
    (((exAB.Add "c").2.Remove "c").2).hostList = exAB.hostList ∧
    ConsistentHashing.GetLoads (((exAB.Add "c").2.Remove "c").2) =
      ConsistentHashing.GetLoads exAB := by
  have h1 : mapFind exAB.loadMap "c" = none := by decide
  have h2 : "c" ∉ exAB.hostList := by decide
  have hmain := add_remove_round_trip exAB (exAB.Add "c").2
    ((exAB.Add "c").2.Remove "c").2 "c" h1 h2 rfl rfl
  exact ⟨h1, h2, hmain.1, hmain.2⟩

/-! ### Search characterization -/

theorem findIdx_getD_spec (p : Nat → Bool) (l : List Nat) :
    (l.findIdx p = l.length ∧ ∀ x ∈ l, p x = false) ∨
    (l.findIdx p < l.length ∧ p (l.getD (l.findIdx p) 0) = true ∧
      ∀ j, j < l.findIdx p → p (l.getD j 0) = false) := by
  induction l with
  | nil => left; exact ⟨rfl, by simp⟩
  | cons a t ih =>
    by_cases hpa : p a = true
    · right
      simp [List.findIdx_cons, hpa]
    · have hpa' : p a = false := by simpa using hpa
      rcases ih with ⟨h1, h2⟩ | ⟨h1, h2, h3⟩
      · left
        constructor
        · simp [List.findIdx_cons, hpa', h1]
        · intro x hx
          rcases List.mem_cons.mp hx with rfl | hx
          · exact hpa'
          · exact h2 x hx
      · right
        refine ⟨?_, ?_, ?_⟩
        · simp only [List.findIdx_cons, hpa', cond_false, List.length_cons]
          omega
        · simpa only [List.findIdx_cons, hpa', cond_false, List.getD_cons_succ]
            using h2
        · intro j hj
          simp only [List.findIdx_cons, hpa', cond_false] at hj
          cases j with
          | zero => exact hpa'
          | succ j =>
            rw [List.getD_cons_succ]
            exact h3 j (by omega)

theorem getD_mem_of_lt (l : List Nat) (i : Nat) (hi : i < l.length) :
    l.getD i 0 ∈ l := by
  rw [List.getD_eq_getElem?_getD, List.getElem?_eq_getElem hi]
  simp only [Option.getD_some]
  exact List.getElem_mem hi

theorem pairwise_getD_le (l : List Nat) (hs : l.Pairwise (· ≤ ·))
    (i j : Nat) (hij : i < j) (hj : j < l.length) : l.getD i 0 ≤ l.getD j 0 := by
  have hi : i < l.length := lt_trans hij hj
  rw [List.getD_eq_getElem?_getD, List.getElem?_eq_getElem hi,
    List.getD_eq_getElem?_getD, List.getElem?_eq_getElem hj]
  simpa using List.pairwise_iff_get.mp hs ⟨i, hi⟩ ⟨j, hj⟩ hij

theorem owner_exists (c : ConsistentHashing)
    (howners : ∀ p ∈ c.sortedSet,
      ((mapFind c.hosts p).bind (fun h => mapFind c.loadMap h)).isSome)
    {p : Nat} (hp : p ∈ c.sortedSet) : ∃ host, mapFind c.hosts p = some host := by
  have hx := howners p hp
  cases hf : mapFind c.hosts p with
  | some h => exact ⟨h, rfl⟩
  | none => rw [hf] at hx; simp at hx

theorem Get_eq_lookup (c : ConsistentHashing) (key : String) (hv : Nat)
    (hne : c.hostList ≠ []) (hh : c.config.hashFunction key = some hv) :
    c.Get key =
      (match mapFind c.hosts (c.sortedSet.getD (c.Search hv) 0) with
       | some host => Outcome.ok host
       | none => Outcome.err CHError.hostNotFound) := by
  unfold ConsistentHashing.Get ConsistentHashing.Hash
  rw [if_neg (by simpa using fun h0 => hne (List.length_eq_zero.mp h0)), hh]

/-- C6: on an empty ring `Get` fails with `NoHostAvailable`; otherwise it
hashes the key and returns the owner of the smallest ring position `≥ hash`,
wrapping to the smallest position overall when no position is `≥ hash`. -/
theorem get_returns_clockwise_successor (c : ConsistentHashing) (key : String)
    (hv : Nat) :
    (c.hostList = [] → c.Get key = .err .noHost) ∧
    (c.hostList ≠ [] → ConsistentHashing.wellFormed c →
      c.config.hashFunction key = some hv →
      ∃ p host, p ∈ c.sortedSet ∧ mapFind c.hosts p = some host ∧
        c.Get key = .ok host ∧
        ((hv ≤ p ∧ ∀ q ∈ c.sortedSet, hv ≤ q → p ≤ q) ∨
         ((∀ q ∈ c.sortedSet, q < hv) ∧ ∀ q ∈ c.sortedSet, p ≤ q))) := by
  constructor
  · intro he
    unfold ConsistentHashing.Get
    rw [if_pos (by rw [he]; rfl)]
  · intro hne hWF hh
    obtain ⟨hsorted, howners, hlen, hR⟩ := hWF
    have hn : 0 < c.sortedSet.length := by
      rw [hlen]
      have h1 : c.hostList.length ≠ 0 := fun h0 => hne (List.length_eq_zero.mp h0)
      have h2 : 0 < c.config.replicationFactor.toNat := by omega
      exact Nat.mul_pos h2 (Nat.pos_of_ne_zero h1)
    rcases findIdx_getD_spec (fun x => decide (hv ≤ x)) c.sortedSet with
      ⟨hflen, hall⟩ | ⟨hflt, hfp, hfmin⟩
    · -- no position ≥ hv: the index wraps to 0, the smallest position
      have hidx : c.Search hv = 0 := by
        unfold ConsistentHashing.Search
        rw [hflen, Nat.mod_self]
      have hpmem : c.sortedSet.getD 0 0 ∈ c.sortedSet := getD_mem_of_lt _ _ hn
      obtain ⟨host, hhost⟩ := owner_exists c howners hpmem
      refine ⟨_, host, hpmem, hhost, ?_, Or.inr ⟨?_, ?_⟩⟩
      · rw [Get_eq_lookup c key hv hne hh, hidx, hhost]
      · intro q hq
        have := hall q hq
        simp only [decide_eq_false_iff_not] at this
        omega
      · intro q hq
        obtain ⟨⟨j, hj⟩, rfl⟩ := List.mem_iff_get.mp hq
        rcases Nat.eq_zero_or_pos j with rfl | hjpos
        · rw [List.getD_eq_getElem?_getD, List.getElem?_eq_getElem hj]
          simp [List.get_eq_getElem]
        · have := pairwise_getD_le c.sortedSet hsorted 0 j hjpos hj
          rw [List.getD_eq_getElem?_getD (c.sortedSet) j,
            List.getElem?_eq_getElem hj] at this
          simpa [List.get_eq_getElem] using this
    · -- found: the smallest position ≥ hv
      set i₀ := c.sortedSet.findIdx (fun x => decide (hv ≤ x)) with hi₀
      have hidx : c.Search hv = i₀ := by
        unfold ConsistentHashing.Search
        rw [← hi₀, Nat.mod_eq_of_lt hflt]
      have hpmem : c.sortedSet.getD i₀ 0 ∈ c.sortedSet := getD_mem_of_lt _ _ hflt
      obtain ⟨host, hhost⟩ := owner_exists c howners hpmem
      refine ⟨_, host, hpmem, hhost, ?_, Or.inl ⟨?_, ?_⟩⟩
      · rw [Get_eq_lookup c key hv hne hh, hidx, hhost]
      · simpa using hfp
      · intro q hq hvq
        obtain ⟨⟨j, hj⟩, rfl⟩ := List.mem_iff_get.mp hq
        rcases lt_or_le j i₀ with hji | hji
        · exfalso
          have := hfmin j hji
          simp only [decide_eq_false_iff_not] at this
          apply this
          rw [List.getD_eq_getElem?_getD, List.getElem?_eq_getElem hj]
          simpa [List.get_eq_getElem] using hvq
        · rcases eq_or_lt_of_le hji with rfl | hji
          · rw [List.getD_eq_getElem?_getD, List.getElem?_eq_getElem hj]
            simp [List.get_eq_getElem]
          · have := pairwise_getD_le c.sortedSet hsorted i₀ j hji hj
            rw [List.getD_eq_getElem?_getD (c.sortedSet) j,
              List.getElem?_eq_getElem hj] at this
            simpa [List.get_eq_getElem] using this

/-- Witness for C6 at a concrete ring: key `k` hashes to 150 and is owned by
`b` at position 200 on the ring `[100, 200]`. -/
theorem get_returns_clockwise_successor_witness :
    exAB.hostList ≠ [] ∧ ConsistentHashing.wellFormed exAB ∧
    exHash "k" = some 150 ∧
    (∃ p host, p ∈ exAB.sortedSet ∧ mapFind exAB.hosts p = some host ∧
      exAB.Get "k" = .ok host ∧
      ((150 ≤ p ∧ ∀ q ∈ exAB.sortedSet, 150 ≤ q → p ≤ q) ∨
       ((∀ q ∈ exAB.sortedSet, q < 150) ∧ ∀ q ∈ exAB.sortedSet, p ≤ q))) :=
  ⟨by decide, by decide, by decide,
    (get_returns_clockwise_successor exAB "k" 150).2 (by decide) (by decide)
      (by decide)⟩

/-! ### MaxLoad versus the spec formula -/

theorem ceilFrac_eq_ceil (a b : Int) (hb : 0 < b) :
    ceilFrac a b = ⌈(a : ℚ) / (b : ℚ)⌉ := by
  obtain ⟨n, rfl⟩ : ∃ n : ℕ, b = (n : Int) :=
    ⟨b.toNat, (Int.toNat_of_nonneg hb.le).symm⟩
  unfold ceilFrac
  rw [Int.cast_natCast]
  have h : (⌈(a : ℚ) / (n : ℚ)⌉ : Int) = -⌊-((a : ℚ) / (n : ℚ))⌋ := by
    rw [Int.floor_neg]; ring
  rw [h, Int.fdiv_eq_ediv _ (by positivity),
    ← Rat.floor_intCast_div_natCast (-a) n]
  push_cast
  ring_nf

/-- C2 amended: for a nonempty host list with nonnegative total load and a
positive load factor, `MaxLoad` equals
`ceil((max 1 totalLoad) / |hosts| × loadFactor)` — the floor at 1 is applied
to the *total load* before averaging (its only effective case being
`totalLoad = 0`), not to the per-host average; and the result is at least 1
without any explicit final floor. -/
theorem maxLoad_amended (c : ConsistentHashing)
    (hne : c.hostList ≠ []) (hT : 0 ≤ c.totalLoad)
    (hlf : 0 < c.config.loadFactor) :
    c.MaxLoad = ⌈(((max 1 c.totalLoad : Int) : ℚ) / (c.hostList.length : ℚ)) *
        c.config.loadFactor⌉ ∧ 1 ≤ c.MaxLoad := by
  have hnl : 0 < c.hostList.length := List.length_pos.mpr hne
  have hdnz : (c.config.loadFactor.den : Int) ≠ 0 := by
    exact_mod_cast c.config.loadFactor.den_nz
  have hden : (0 : Int) <
      (c.hostList.length : Int) * (c.config.loadFactor.den : Int) := by
    have h1 : (0 : Int) < (c.hostList.length : Int) := by exact_mod_cast hnl
    have h2 : (0 : Int) < (c.config.loadFactor.den : Int) := by omega
    positivity
  have hT1 : (if c.totalLoad = 0 then 1 else c.totalLoad) = max 1 c.totalLoad := by
    rcases eq_or_lt_of_le hT with h | h
    · simp [← h]
    · rw [if_neg (by omega)]
      omega
  have heq : c.MaxLoad =
      ⌈(((max 1 c.totalLoad : Int) : ℚ) / (c.hostList.length : ℚ)) *
        c.config.loadFactor⌉ := by
    unfold ConsistentHashing.MaxLoad
    rw [hT1, ceilFrac_eq_ceil _ _ hden]
    congr 1
    push_cast
    conv_rhs => rw [← Rat.num_div_den c.config.loadFactor]
    rw [div_mul_div_comm]
  refine ⟨heq, ?_⟩
  rw [heq]
  have hq : (0 : ℚ) <
      (((max 1 c.totalLoad : Int) : ℚ) / (c.hostList.length : ℚ)) *
        c.config.loadFactor := by
    apply mul_pos _ hlf
    apply div_pos
    · have h1 : (1 : Int) ≤ max 1 c.totalLoad := le_max_left _ _
      exact_mod_cast lt_of_lt_of_le zero_lt_one (by exact_mod_cast h1)
    · exact_mod_cast hnl
  have := Int.ceil_pos.mpr hq
  omega

/-- Witness for the amended C2 at a concrete ring (2 hosts, total load 1). -/
theorem maxLoad_amended_witness :
    exAB1.hostList ≠ [] ∧ (0 : Int) ≤ exAB1.totalLoad ∧
    0 < exAB1.config.loadFactor ∧
    (exAB1.MaxLoad = ⌈(((max 1 exAB1.totalLoad : Int) : ℚ) /
        (exAB1.hostList.length : ℚ)) * exAB1.config.loadFactor⌉ ∧
      1 ≤ exAB1.MaxLoad) := by
  have hlf : 0 < exAB1.config.loadFactor := by
    have h : exAB1.config.loadFactor = Rat.divInt 5 4 := by decide
    rw [h, Rat.divInt_eq_div]
    norm_num
  exact ⟨by decide, by decide, hlf,
    maxLoad_amended exAB1 (by decide) (by decide) hlf⟩

/-- C2 counterexample: in the reachable state with hosts `a`, `b` and total
load 1, the source computes `MaxLoad = ceil(0.5 × 1.25) = 1`, but the spec
formula `ceil(max(1, totalLoad/|hosts|) × loadFactor)` gives
`ceil(1 × 1.25) = 2`: the claimed equation is false at this state. -/
theorem maxLoad_spec_formula_counterexample :
    exAB1.hostList.length = 2 ∧ exAB1.MaxLoad = 1 ∧
    ConsistentHashing.specMaxLoad exAB1 = 2 := by
  refine ⟨by decide, by decide, ?_⟩
  have h1 : exAB1.totalLoad = 1 := by decide
  have h2 : exAB1.hostList.length = 2 := by decide
  have h3 : exAB1.config.loadFactor = Rat.divInt 5 4 := by decide
  unfold ConsistentHashing.specMaxLoad
  rw [h1, h2, h3, Rat.divInt_eq_div]
  have hmax : max (1 : ℚ) (((1 : Int) : ℚ) / ((2 : ℕ) : ℚ)) = 1 := by
    apply max_eq_left
    push_cast
    norm_num
  rw [hmax]
  rw [Int.ceil_eq_iff]
  constructor <;> push_cast <;> norm_num

/-! ### The GetLeast walk -/

theorem walkIdx_length (n start : Nat) :
    (ConsistentHashing.walkIdx n start).length = n := by
  simp [ConsistentHashing.walkIdx]

theorem walkIdx_nodup (n start : Nat) :
    (ConsistentHashing.walkIdx n start).Nodup := by
  unfold ConsistentHashing.walkIdx
  rcases Nat.eq_zero_or_pos n with rfl | hn
  · simp
  · refine List.Nodup.map_on ?_ (List.nodup_range n)
    intro i hi j hj hij
    simp only [List.mem_range] at hi hj
    have h2 : i ≡ j [MOD n] := Nat.ModEq.add_left_cancel' start hij
    unfold Nat.ModEq at h2
    rwa [Nat.mod_eq_of_lt hi, Nat.mod_eq_of_lt hj] at h2

theorem walkIdx_lt (n start : Nat) (hn : 0 < n) :
    ∀ j ∈ ConsistentHashing.walkIdx n start, j < n := by
  intro j hj
  unfold ConsistentHashing.walkIdx at hj
  simp only [List.mem_map, List.mem_range] at hj
  obtain ⟨i, _, rfl⟩ := hj
  exact Nat.mod_lt _ hn

theorem walkIdx_head (n start : Nat) (hn : 0 < n) (hs : start < n) :
    (ConsistentHashing.walkIdx n start).head? = some start := by
  unfold ConsistentHashing.walkIdx
  cases n with
  | zero => omega
  | succ m =>
    rw [List.range_succ_eq_map, List.map_cons]
    show some ((start + 0) % (m + 1)) = some start
    rw [Nat.add_zero, Nat.mod_eq_of_lt hs]

theorem search_lt (c : ConsistentHashing) (hv : Nat)
    (hn : 0 < c.sortedSet.length) : c.Search hv < c.sortedSet.length :=
  Nat.mod_lt _ hn

theorem loadOk_some (c : ConsistentHashing) (h : String)
    (hok : c.LoadOk h = true) :
    mapFind c.loadMap h = some (c.loadOf h) ∧ c.loadOf h < c.MaxLoad := by
  unfold ConsistentHashing.LoadOk at hok
  cases hmf : mapFind c.loadMap h with
  | none => rw [hmf] at hok; simp at hok
  | some l =>
    rw [hmf] at hok
    simp only [decide_eq_true_eq] at hok
    unfold ConsistentHashing.loadOf
    rw [hmf]
    exact ⟨rfl, hok⟩

theorem stepBestH_eq (c : ConsistentHashing) (acc : String × Int) (x : String) :
    c.stepBestH acc x =
      if c.LoadOk x = true ∧ c.loadOf x < acc.2 then (x, c.loadOf x) else acc := by
  unfold ConsistentHashing.stepBestH
  by_cases hok : c.LoadOk x = true
  · have hmf := (loadOk_some c x hok).1
    rw [hmf]
    simp only [hok, if_true, true_and]
  · simp only [Bool.not_eq_true] at hok
    simp [hok]

theorem stepBest_eq_stepBestH (c : ConsistentHashing) (acc : String × Int)
    (j : Nat) (h : (mapFind c.hosts (c.sortedSet.getD j 0)).isSome = true) :
    c.stepBest acc j = c.stepBestH acc (c.ownerAt j) := by
  unfold ConsistentHashing.stepBest ConsistentHashing.stepBestH
    ConsistentHashing.ownerAt
  cases hmf : mapFind c.hosts (c.sortedSet.getD j 0) with
  | none => rw [hmf] at h; simp at h
  | some host => rfl

theorem foldl_stepBest_bridge (c : ConsistentHashing) :
    ∀ (idxs : List Nat) (acc : String × Int),
      (∀ j ∈ idxs, (mapFind c.hosts (c.sortedSet.getD j 0)).isSome = true) →
      idxs.foldl (c.stepBest) acc = (idxs.map (c.ownerAt)).foldl (c.stepBestH) acc := by
  intro idxs
  induction idxs with
  | nil => intro acc _; rfl
  | cons j t ih =>
    intro acc hall
    rw [List.map_cons, List.foldl_cons, List.foldl_cons,
      stepBest_eq_stepBestH c acc j (hall j (by simp))]
    exact ih _ (fun x hx => hall x (by simp [hx]))

theorem foldH_le (c : ConsistentHashing) :
    ∀ (hs : List String) (b₀ : String) (m₀ : Int),
      (hs.foldl (c.stepBestH) (b₀, m₀)).2 ≤ m₀ := by
  intro hs
  induction hs with
  | nil => intro b₀ m₀; simp
  | cons x t ih =>
    intro b₀ m₀
    rw [List.foldl_cons, stepBestH_eq]
    by_cases hc : c.LoadOk x = true ∧ c.loadOf x < m₀
    · rw [if_pos (by simpa using hc)]
      exact le_trans (ih x (c.loadOf x)) (le_of_lt hc.2)
    · rw [if_neg (by simpa using hc)]
      exact ih b₀ m₀

theorem foldH_min (c : ConsistentHashing) :
    ∀ (hs : List String) (b₀ : String) (m₀ : Int) (h : String),
      h ∈ hs → c.LoadOk h = true →
      (hs.foldl (c.stepBestH) (b₀, m₀)).2 ≤ c.loadOf h := by
  intro hs
  induction hs with
  | nil => intro b₀ m₀ h hmem; simp at hmem
  | cons x t ih =>
    intro b₀ m₀ h hmem hok
    rw [List.foldl_cons, stepBestH_eq]
    rcases List.mem_cons.mp hmem with rfl | hmem
    · by_cases hc : c.LoadOk h = true ∧ c.loadOf h < m₀
      · rw [if_pos (by simpa using hc)]
        exact foldH_le c t h (c.loadOf h)
      · have hge : m₀ ≤ c.loadOf h := by
          rcases not_and_or.mp hc with h1 | h1
          · exact absurd hok h1
          · omega
        rw [if_neg (by simpa using hc)]
        exact le_trans (foldH_le c t b₀ m₀) hge
    · by_cases hc : c.LoadOk x = true ∧ c.loadOf x < m₀
      · rw [if_pos (by simpa using hc)]
        exact ih x (c.loadOf x) h hmem hok
      · rw [if_neg (by simpa using hc)]
        exact ih b₀ m₀ h hmem hok

theorem foldH_shape (c : ConsistentHashing) :
    ∀ (hs : List String) (b₀ : String) (m₀ : Int),
      hs.foldl (c.stepBestH) (b₀, m₀) = (b₀, m₀) ∨
      ∃ h ∈ hs, c.LoadOk h = true ∧
        hs.foldl (c.stepBestH) (b₀, m₀) = (h, c.loadOf h) ∧ c.loadOf h < m₀ := by
  intro hs
  induction hs with
  | nil => intro b₀ m₀; left; rfl
  | cons x t ih =>
    intro b₀ m₀
    rw [List.foldl_cons, stepBestH_eq]
    by_cases hc : c.LoadOk x = true ∧ c.loadOf x < m₀
    · rw [if_pos (by simpa using hc)]
      rcases ih x (c.loadOf x) with h1 | ⟨h, hmem, hok, heq, hlt⟩
      · right
        exact ⟨x, by simp, hc.1, h1, hc.2⟩
      · right
        exact ⟨h, by simp [hmem], hok, heq, lt_trans hlt hc.2⟩
    · rw [if_neg (by simpa using hc)]
      rcases ih b₀ m₀ with h1 | ⟨h, hmem, hok, heq, hlt⟩
      · left; exact h1
      · right
        exact ⟨h, by simp [hmem], hok, heq, hlt⟩

theorem foldH_first (c : ConsistentHashing) :
    ∀ (hs : List String) (b₀ : String) (m₀ : Int),
      (hs.foldl (c.stepBestH) (b₀, m₀)).2 < m₀ →
      hs.find? (fun x => c.LoadOk x &&
          decide (c.loadOf x ≤ (hs.foldl (c.stepBestH) (b₀, m₀)).2)) =
        some (hs.foldl (c.stepBestH) (b₀, m₀)).1 := by
  intro hs
  induction hs with
  | nil => intro b₀ m₀ hlt; simp at hlt
  | cons x t ih =>
    intro b₀ m₀ hlt
    rw [List.foldl_cons, stepBestH_eq] at hlt ⊢
    by_cases hc : c.LoadOk x = true ∧ c.loadOf x < m₀
    · rw [if_pos (by simpa using hc)] at hlt ⊢
      rcases foldH_shape c t x (c.loadOf x) with h1 | ⟨h, hmem, hok, heq, hlt2⟩
      · rw [h1]
        rw [List.find?_cons_of_pos _ (by simp [hc.1])]
      · rw [heq] at hlt ⊢
        rw [List.find?_cons_of_neg _ (by simp [hlt2, not_le])]
        have := ih x (c.loadOf x)
        rw [heq] at this
        exact this hlt2
    · rw [if_neg (by simpa using hc)] at hlt ⊢
      have hxf : (c.LoadOk x &&
          decide (c.loadOf x ≤ (t.foldl (c.stepBestH) (b₀, m₀)).2)) = false := by
        rcases not_and_or.mp hc with h1 | h1
        · simp only [Bool.not_eq_true] at h1
          simp [h1]
        · have hge : m₀ ≤ c.loadOf x := by omega
          have : ¬ c.loadOf x ≤ (t.foldl (c.stepBestH) (b₀, m₀)).2 := by omega
          simp [this]
      rw [List.find?_cons_of_neg _ (by simp [hxf])]
      exact ih b₀ m₀ hlt

theorem mapFind_mem {κ ν : Type} [DecidableEq κ] (m : List (κ × ν)) (k : κ) (v : ν)
    (h : mapFind m k = some v) : ∃ e ∈ m, e.2 = v := by
  unfold mapFind at h
  cases hf : m.find? (fun e => decide (e.1 = k)) with
  | none => rw [hf] at h; simp at h
  | some e =>
    rw [hf] at h
    simp only [Option.map_some'] at h
    exact ⟨e, List.mem_of_find?_eq_some hf, by injection h⟩

theorem getLeastFlag_eq (c : ConsistentHashing) (key : String) (hv : Nat)
    (hne : c.hostList ≠ []) (hh : c.config.hashFunction key = some hv) :
    c.getLeastFlag key = c.getLeastAux (c.Search hv) := by
  unfold ConsistentHashing.getLeastFlag ConsistentHashing.Hash
  rw [if_neg (by simpa using fun h0 => hne (List.length_eq_zero.mp h0)), hh]

/-- C4 counterexample: the claim as stated is false on the code. In the
reachable ring `exE` (`Add ""`, `Add "x"`, `IncreaseLoad "x"`), the walk for
key `k` contains the host named `""`, which is strictly below the bound
(`LoadOk` holds) and is the globally minimum-load host — yet `GetLeast`
returns `x`, the saturated plain-`Get` host: the Go loop conflates
`leastLoadedHost == ""` with "no candidate found" and wrongly takes the
fallback even though a host below the bound exists. -/
theorem getLeast_skips_empty_name_host :
    exE.hostList ≠ [] ∧ exE.config.hashFunction "k" = some 150 ∧
    ConsistentHashing.wellFormed exE ∧
    "" ∈ exE.walkHosts (exE.Search 150) ∧ exE.LoadOk "" = true ∧
    exE.LoadOk "x" = false ∧
    exE.Get "k" = .ok "x" ∧ exE.GetLeast "k" = .ok "x" := by decide

/-- C4 amended: for a nonempty well-formed ring *in which no virtual node is
owned by the empty host name* (and every ledger load is below the
`math.MaxInt64` sentinel that seeds the Go loop), the `GetLeast` walk starts
at the ring position `Get` would use, probes each of the `R × |hosts|`
virtual nodes exactly once, and returns — among the hosts whose load is
strictly below `MaxLoad` — the one of globally minimum load, ties broken by
first encounter in walk order; when no host is below the bound it returns
exactly what the plain `Get` rule returns. The empty-name exclusion is forced
by `getLeast_skips_empty_name_host`: a host named `""` below the bound is
conflated with "no candidate" and skipped in favour of the fallback. -/
theorem getLeast_walk_characterization (c : ConsistentHashing) (key : String)
    (hv : Nat) (hWF : ConsistentHashing.wellFormed c) (hne : c.hostList ≠ [])
    (hh : c.config.hashFunction key = some hv)
    (hload : ∀ e ∈ c.loadMap, e.2 < int64Max)
    (hnn : ∀ p ∈ c.sortedSet, ¬ mapFind c.hosts p = some "") :
    (ConsistentHashing.walkIdx c.sortedSet.length (c.Search hv)).Nodup ∧
    (ConsistentHashing.walkIdx c.sortedSet.length (c.Search hv)).length
      = c.config.replicationFactor.toNat * c.hostList.length ∧
    (ConsistentHashing.walkIdx c.sortedSet.length (c.Search hv)).head?
      = some (c.Search hv) ∧
    ((c.walkHosts (c.Search hv)).any (c.LoadOk) = true →
      ∃ hst, c.GetLeast key = .ok hst ∧ c.LoadOk hst = true ∧
        (∀ x ∈ c.walkHosts (c.Search hv), c.LoadOk x = true →
          c.loadOf hst ≤ c.loadOf x) ∧
        (c.walkHosts (c.Search hv)).find?
          (fun x => c.LoadOk x && decide (c.loadOf x ≤ c.loadOf hst))
          = some hst) ∧
    ((c.walkHosts (c.Search hv)).any (c.LoadOk) = false →
      c.GetLeast key = c.Get key) := by
  obtain ⟨hsorted, howners, hlen, hR⟩ := hWF
  have hn : 0 < c.sortedSet.length := by
    rw [hlen]
    have h1 : c.hostList.length ≠ 0 := fun h0 => hne (List.length_eq_zero.mp h0)
    have h2 : 0 < c.config.replicationFactor.toNat := by omega
    exact Nat.mul_pos h2 (Nat.pos_of_ne_zero h1)
  have hstart : c.Search hv < c.sortedSet.length := search_lt c hv hn
  have hallow : ∀ j ∈ ConsistentHashing.walkIdx c.sortedSet.length (c.Search hv),
      (mapFind c.hosts (c.sortedSet.getD j 0)).isSome = true := by
    intro j hj
    have hjlt := walkIdx_lt _ _ hn j hj
    obtain ⟨host, hhost⟩ := owner_exists c howners (getD_mem_of_lt _ _ hjlt)
    rw [hhost]; rfl
  have hbridge : c.bestLoop (c.Search hv)
      = (c.walkHosts (c.Search hv)).foldl (c.stepBestH) ("", int64Max) := by
    unfold ConsistentHashing.bestLoop ConsistentHashing.walkHosts
    exact foldl_stepBest_bridge c _ _ hallow
  have hwne : ∀ x ∈ c.walkHosts (c.Search hv), x ≠ "" := by
    intro x hx
    unfold ConsistentHashing.walkHosts at hx
    obtain ⟨j, hj, rfl⟩ := List.mem_map.mp hx
    have hjlt := walkIdx_lt _ _ hn j hj
    obtain ⟨host, hhost⟩ := owner_exists c howners (getD_mem_of_lt _ _ hjlt)
    have hne0 := hnn _ (getD_mem_of_lt _ _ hjlt)
    unfold ConsistentHashing.ownerAt
    rw [hhost]
    intro hcon
    apply hne0
    rw [hhost, show host = "" from hcon]
  refine ⟨walkIdx_nodup _ _, by rw [walkIdx_length, hlen],
    walkIdx_head _ _ hn hstart, ?_, ?_⟩
  · intro hany
    obtain ⟨h₀, hmem₀, hok₀⟩ : ∃ x, x ∈ c.walkHosts (c.Search hv) ∧
        c.LoadOk x = true := by simpa using List.any_eq_true.mp hany
    have hload₀ : c.loadOf h₀ < int64Max := by
      obtain ⟨e, hemem, he2⟩ := mapFind_mem _ _ _ (loadOk_some c h₀ hok₀).1
      rw [← he2]
      exact hload e hemem
    have hmin₀ := foldH_min c (c.walkHosts (c.Search hv)) "" int64Max h₀ hmem₀ hok₀
    have hlt : ((c.walkHosts (c.Search hv)).foldl (c.stepBestH)
        ("", int64Max)).2 < int64Max := lt_of_le_of_lt hmin₀ hload₀
    rcases foldH_shape c (c.walkHosts (c.Search hv)) "" int64Max with
      hsh | ⟨hst, hmem, hok, heq, _⟩
    · rw [hsh] at hlt; simp at hlt
    · have hbest : c.bestLoop (c.Search hv) = (hst, c.loadOf hst) :=
        hbridge.trans heq
      have hstne : hst ≠ "" := hwne hst hmem
      refine ⟨hst, ?_, hok, ?_, ?_⟩
      · unfold ConsistentHashing.GetLeast
        rw [getLeastFlag_eq c key hv hne hh]
        simp only [ConsistentHashing.getLeastAux, hbest]
        rw [if_neg hstne]
      · intro x hx hokx
        have hmx := foldH_min c (c.walkHosts (c.Search hv)) "" int64Max x hx hokx
        rw [heq] at hmx
        exact hmx
      · have hfirst := foldH_first c (c.walkHosts (c.Search hv)) "" int64Max hlt
        rw [heq] at hfirst
        exact hfirst
  · intro hnone
    have hid : (c.walkHosts (c.Search hv)).foldl (c.stepBestH) ("", int64Max)
        = ("", int64Max) := by
      rcases foldH_shape c (c.walkHosts (c.Search hv)) "" int64Max with
        hsh | ⟨h₁, hmem, hok, heq, hlt⟩
      · exact hsh
      · exfalso
        have := List.any_eq_false.mp hnone h₁ hmem
        rw [hok] at this
        exact this rfl
    have hbest : c.bestLoop (c.Search hv) = ("", int64Max) := hbridge.trans hid
    obtain ⟨host, hhost⟩ := owner_exists c howners (getD_mem_of_lt _ _ hstart)
    have hgl : c.GetLeast key = .ok host := by
      unfold ConsistentHashing.GetLeast
      rw [getLeastFlag_eq c key hv hne hh]
      simp only [ConsistentHashing.getLeastAux, hbest]
      rw [if_pos trivial, hhost]
    have hget : c.Get key = .ok host := by
      rw [Get_eq_lookup c key hv hne hh, hhost]
    rw [hgl, hget]

/-- Witness for C4 at a concrete ring: hosts `a` (load 0) and `b` (load 2),
bound 2; the walk from key `k` finds `a` as the least-loaded acceptable
host. -/
theorem getLeast_walk_characterization_witness :
    ConsistentHashing.wellFormed exABb2 ∧ exABb2.hostList ≠ [] ∧
    exHash "k" = some 150 ∧
    (∀ e ∈ exABb2.loadMap, e.2 < int64Max) ∧
    (∀ p ∈ exABb2.sortedSet, ¬ mapFind exABb2.hosts p = some "") ∧
    (exABb2.walkHosts (exABb2.Search 150)).any (exABb2.LoadOk) = true ∧
    (∃ hst, exABb2.GetLeast "k" = .ok hst ∧ exABb2.LoadOk hst = true ∧
      (∀ x ∈ exABb2.walkHosts (exABb2.Search 150), exABb2.LoadOk x = true →
        exABb2.loadOf hst ≤ exABb2.loadOf x) ∧
      (exABb2.walkHosts (exABb2.Search 150)).find?
        (fun x => exABb2.LoadOk x &&
          decide (exABb2.loadOf x ≤ exABb2.loadOf hst)) = some hst) :=
  ⟨by decide, by decide, by decide, by decide, by decide, by decide,
    (getLeast_walk_characterization exABb2 "k" 150 (by decide) (by decide)
      (by decide) (by decide) (by decide)).2.2.2.1 (by decide)⟩

/-! ### GetLeast + IncreaseLoad traces -/

theorem stepBest_inv (c : ConsistentHashing) (acc : String × Int) (j : Nat) :
    c.stepBest acc j = acc ∨
      (c.LoadOk (c.stepBest acc j).1 = true ∧
        mapFind c.loadMap (c.stepBest acc j).1 = some (c.stepBest acc j).2) := by
  unfold ConsistentHashing.stepBest
  cases hmf : mapFind c.hosts (c.sortedSet.getD j 0) with
  | none => left; rfl
  | some host =>
    by_cases hok : c.LoadOk host = true
    · simp only [hok, if_true]
      cases hml : mapFind c.loadMap host with
      | none => left; rfl
      | some load =>
        by_cases hlt : load < acc.2
        · right
          show c.LoadOk (if load < acc.2 then (host, load) else acc).1 = true ∧
            mapFind c.loadMap (if load < acc.2 then (host, load) else acc).1
              = some (if load < acc.2 then (host, load) else acc).2
          rw [if_pos hlt]
          exact ⟨hok, hml⟩
        · left
          show (if load < acc.2 then (host, load) else acc) = acc
          rw [if_neg hlt]
    · simp only [Bool.not_eq_true] at hok
      left
      simp [hok]

theorem foldl_stepBest_inv (c : ConsistentHashing) :
    ∀ (idxs : List Nat) (acc : String × Int),
      (acc = ("", int64Max) ∨
        (c.LoadOk acc.1 = true ∧ mapFind c.loadMap acc.1 = some acc.2)) →
      (idxs.foldl c.stepBest acc = ("", int64Max) ∨
        (c.LoadOk (idxs.foldl c.stepBest acc).1 = true ∧
          mapFind c.loadMap (idxs.foldl c.stepBest acc).1
            = some (idxs.foldl c.stepBest acc).2)) := by
  intro idxs
  induction idxs with
  | nil => intro acc hacc; simpa using hacc
  | cons j t ih =>
    intro acc hacc
    rw [List.foldl_cons]
    apply ih
    rcases stepBest_inv c acc j with heq | hinv
    · rw [heq]; exact hacc
    · right; exact hinv

theorem bestLoop_mem (c : ConsistentHashing) (start : Nat)
    (h : ¬ (c.bestLoop start).1 = "") :
    c.LoadOk (c.bestLoop start).1 = true ∧
      mapFind c.loadMap (c.bestLoop start).1 = some (c.bestLoop start).2 := by
  rcases foldl_stepBest_inv c
      (ConsistentHashing.walkIdx c.sortedSet.length start)
      ("", int64Max) (Or.inl rfl) with heq | hinv
  · exact absurd (congrArg Prod.fst heq) h
  · exact hinv

theorem getLeastFlag_ok_nofb (c : ConsistentHashing) (key h : String)
    (hres : c.getLeastFlag key = (.ok h, false)) :
    c.LoadOk h = true ∧ mapFind c.loadMap h = some (c.loadOf h) ∧
      c.loadOf h < c.MaxLoad := by
  unfold ConsistentHashing.getLeastFlag at hres
  by_cases hlen : c.hostList.length = 0
  · rw [if_pos hlen] at hres
    exact absurd (congrArg Prod.fst hres) (by simp)
  · rw [if_neg hlen] at hres
    unfold ConsistentHashing.Hash at hres
    cases hh : c.config.hashFunction key with
    | none =>
      rw [hh] at hres
      exact absurd (congrArg Prod.fst hres) (by simp)
    | some hv =>
      rw [hh] at hres
      simp only [ConsistentHashing.getLeastAux] at hres
      by_cases hb : (c.bestLoop (c.Search hv)).1 = ""
      · rw [if_pos hb] at hres
        have hcon := congrArg Prod.snd hres
        simp at hcon
      · rw [if_neg hb] at hres
        have h1 : Outcome.ok (c.bestLoop (c.Search hv)).1 = Outcome.ok h :=
          congrArg Prod.fst hres
        have h2 : (c.bestLoop (c.Search hv)).1 = h := by injection h1
        obtain ⟨hok, hmf⟩ := bestLoop_mem c (c.Search hv) hb
        rw [h2] at hok
        have hsome := loadOk_some c h hok
        exact ⟨hok, hsome.1, hsome.2⟩

theorem increaseLoad_loadOf_self (c : ConsistentHashing) (h : String) (l : Int)
    (hs : mapFind c.loadMap h = some l) :
    ((c.IncreaseLoad h).2).loadOf h = c.loadOf h + 1 := by
  unfold ConsistentHashing.loadOf ConsistentHashing.IncreaseLoad
  rw [hs]
  show (mapFind (mapAdjust c.loadMap h (fun x => x + 1)) h).getD 0
    = (some l).getD 0 + 1
  rw [mapFind_adjust_self, hs]
  rfl

theorem increaseLoad_loadOf_other (c : ConsistentHashing) (h x : String)
    (hx : ¬ x = h) : ((c.IncreaseLoad h).2).loadOf x = c.loadOf x := by
  unfold ConsistentHashing.loadOf ConsistentHashing.IncreaseLoad
  cases hs : mapFind c.loadMap h with
  | none => rfl
  | some l =>
    show (mapFind (mapAdjust c.loadMap h (fun x => x + 1)) x).getD 0
      = (mapFind c.loadMap x).getD 0
    rw [mapFind_adjust_ne _ _ _ _ hx]

theorem step_none_state (c : ConsistentHashing) (key : String)
    (h : (c.step key).2 = none) : (c.step key).1 = c := by
  unfold ConsistentHashing.step at h ⊢
  cases hg : c.getLeastFlag key with
  | mk o fb =>
    cases o with
    | ok h₁ => rw [hg] at h; simp at h
    | err e => rfl
    | fatal => rfl

theorem step_other (c : ConsistentHashing) (key x : String)
    (h : ∀ e, (c.step key).2 = some e → ¬ e.1 = x) :
    ((c.step key).1).loadOf x = c.loadOf x := by
  unfold ConsistentHashing.step at h ⊢
  cases hg : c.getLeastFlag key with
  | mk o fb =>
    cases o with
    | ok h₁ =>
      rw [hg] at h
      simp only at h
      exact increaseLoad_loadOf_other c h₁ x
        (fun hxh => (h (h₁, c.MaxLoad, fb) rfl) hxh.symm)
    | err e => rfl
    | fatal => rfl

theorem step_assigned (c : ConsistentHashing) (key h : String) (B : Int)
    (hstep : (c.step key).2 = some (h, B, false)) :
    ((c.step key).1).loadOf h ≤ B := by
  unfold ConsistentHashing.step at hstep ⊢
  cases hg : c.getLeastFlag key with
  | mk o fb =>
    cases o with
    | ok h₁ =>
      rw [hg] at hstep
      simp only [Option.some.injEq, Prod.mk.injEq] at hstep
      obtain ⟨rfl, hB, hfb⟩ := hstep
      have hok := getLeastFlag_ok_nofb c key h₁ (by rw [hg, hfb])
      obtain ⟨_, hmf, hlt⟩ := hok
      have hself := increaseLoad_loadOf_self c h₁ _ hmf
      show ((c.IncreaseLoad h₁).2).loadOf h₁ ≤ B
      rw [hself]
      omega
    | err e => rw [hg] at hstep; simp at hstep
    | fatal => rw [hg] at hstep; simp at hstep

theorem run_cons (c : ConsistentHashing) (k : String) (rest : List String) :
    c.run (k :: rest) =
      ((((c.step k).1).run rest).1,
        match (c.step k).2 with
        | some e => e :: (((c.step k).1).run rest).2
        | none => (((c.step k).1).run rest).2) := rfl

theorem run_no_assign (c : ConsistentHashing) (keys : List String) (x : String)
    (h : ∀ e ∈ (c.run keys).2, ¬ e.1 = x) :
    ((c.run keys).1).loadOf x = c.loadOf x := by
  induction keys generalizing c with
  | nil => rfl
  | cons k rest ih =>
    rw [run_cons] at h ⊢
    simp only at h ⊢
    have hstep : ((c.step k).1).loadOf x = c.loadOf x := by
      apply step_other
      intro e he
      apply h e
      rw [he]
      exact List.mem_cons_self e _
    rw [← hstep]
    apply ih
    intro e he
    apply h e
    cases hs : (c.step k).2 with
    | some e2 => exact List.mem_cons_of_mem _ he
    | none => exact he

/-- C5: after any sequence of `GetLeast`-then-`IncreaseLoad` rounds, every
host whose most recent assignment was *not* through the fallback branch has
load at most the `MaxLoad` bound that was in force at that assignment; hosts
whose last assignment came from the fallback (taken when no host was under
the bound) are exempt, exactly as the claim's exception states. -/
theorem getLeast_increase_respects_bound (c : ConsistentHashing)
    (keys : List String) (h : String) (B : Int)
    (hlast : ConsistentHashing.lastAssign ((c.run keys).2) h = some (B, false)) :
    ((c.run keys).1).loadOf h ≤ B := by
  induction keys generalizing c with
  | nil => simp [ConsistentHashing.run, ConsistentHashing.lastAssign] at hlast
  | cons k rest ih =>
    rw [run_cons] at hlast ⊢
    simp only at hlast ⊢
    cases hs : (c.step k).2 with
    | none =>
      rw [hs] at hlast
      exact ih _ hlast
    | some e =>
      rw [hs] at hlast
      obtain ⟨e1, eB, efb⟩ := e
      unfold ConsistentHashing.lastAssign at hlast
      rw [List.filter_cons] at hlast
      by_cases hex : (e1, eB, efb).1 = h
      · rw [if_pos (by simpa using hex)] at hlast
        by_cases hft : ((((c.step k).1).run rest).2).filter
            (fun e => decide (e.1 = h)) = []
        · rw [hft] at hlast
          simp only [List.getLast?_singleton, Option.map_some',
            Option.some.injEq, Prod.mk.injEq] at hlast
          obtain ⟨hB, hfb⟩ := hlast
          have he : (c.step k).2 = some (h, B, false) := by
            rw [hs]
            simp only at hex
            rw [hex, hB, hfb]
          have hstep := step_assigned c k h B he
          have hrest : ((((c.step k).1).run rest).1).loadOf h
              = (((c.step k).1)).loadOf h := by
            apply run_no_assign
            intro e2 he2
            have := List.filter_eq_nil_iff.mp hft e2 he2
            simpa using this
          rw [hrest]
          exact hstep
        · rw [show ((e1, eB, efb) :: ((((c.step k).1).run rest).2).filter
              (fun e => decide (e.1 = h)))
              = [(e1, eB, efb)] ++ ((((c.step k).1).run rest).2).filter
              (fun e => decide (e.1 = h)) from rfl,
            List.getLast?_append_of_ne_nil _ hft] at hlast
          exact ih _ hlast
      · rw [if_neg (by simpa using hex)] at hlast
        exact ih _ hlast

/-- Witness for C5 at a concrete ring: one `GetLeast "k"` + `IncreaseLoad`
round assigns `b` under bound 1, and `b`'s final load is 1 ≤ 1. -/
theorem getLeast_increase_respects_bound_witness :
    ConsistentHashing.lastAssign ((exAB.run ["k"]).2) "b" = some (1, false) ∧
    ((exAB.run ["k"]).1).loadOf "b" ≤ 1 :=
  ⟨by decide, getLeast_increase_respects_bound exAB ["k"] "b" 1 (by decide)⟩
